import Mathlib

/-!
Shallow embedding of the `net` neural-network simulation engine
("Fast Neural Net Simulator"). The native kernel sources (`net.pyx`,
`aux.pyx`, `cfns.c`) are not part of the available source tree (only
`setup.py` is), so every definition below is modelled from the
specification's description of the engine: its data model (§3), the
connectivity table (§4.1), the math kernel library (§4.2), the
propagation and integration steps (§4.3–§4.4), the parallel dispatcher
(§4.5), the simulation loop and its state machine (§4.6), and the error
taxonomy (§7). Real numbers are represented by `ℚ`.
-/

/-- Modelled from the spec: per-synapse record (§3) of the missing
connectivity representation — source neuron index, target neuron index,
signed weight, and a non-negative integer transmission delay. -/
structure Synapse where
  src : Nat
  tgt : Nat
  weight : ℚ
  delay : Nat
deriving DecidableEq, Repr

/-- Modelled from the spec: the Connectivity Table (§3, §4.1) of the
missing engine — an immutable-for-the-run list of synapses built once
from caller-supplied arrays. -/
structure Connectivity where
  syns : List Synapse
deriving DecidableEq, Repr

/-- Modelled from the spec: the per-neuron state scalars (§3) of the
missing State Buffers — membrane potential, the firing flag produced by
the last Integration pass, the accumulated-input buffer, and the
per-delay pending-input buckets (`pending k` arrives `k` steps ahead). -/
structure Neuron where
  v : ℚ
  fired : Bool
  acc : ℚ
  pending : Nat → ℚ

/-- Modelled from the spec: the State Buffers (§3), indexed by dense
neuron index in [0, N). -/
abbrev NetState (N : Nat) := Fin N → Neuron

/-- Modelled from the spec: the model parameters of the missing kernels —
time step, decay constant, firing threshold, the finite range guarded by
the numerical kernel, the stochastic-variant noise amplitude, and the
run seed (§4.2, §6, §9). -/
structure Params where
  dt : ℚ
  decay : ℚ
  threshold : ℚ
  vmax : ℚ
  noiseAmp : ℚ
  seed : Nat
deriving DecidableEq, Repr

/-- Modelled from the spec: the Math Kernel Library's pseudo-random draw
(§4.2, §9) — a deterministic counter-based stream indexed by run seed,
step and neuron index, so reproducibility is independent of thread
count. Produces a rational in [0, 1). -/
def noiseFn (seed t i : Nat) : ℚ :=
  (((seed * 1103515245 + t * 12345 + i * 2654435761 + 12345) % 2147483648 : Nat) : ℚ)
    / 2147483648

/-- Modelled from the spec: the error taxonomy (§7). -/
inductive NetError where
  | invalidConnectivity
  | invalidParameter
  | kernelFailure
deriving DecidableEq, Repr

/-- Modelled from the spec: the Simulation Loop state machine values
(§4.6, §6). -/
inductive Status where
  | Idle
  | Running
  | Completed
  | Failed
deriving DecidableEq, Repr

/-- Firing flag of the neuron with (raw) index `i`, read through a
bounds guard; out-of-range reads never occur on a validated
Connectivity Table. -/
def firedAt {N : Nat} (s : NetState N) (i : Nat) : Bool :=
  if h : i < N then (s ⟨i, h⟩).fired else false

/-- Modelled from the spec: the gather-model accumulation (§4.3) — for a
target neuron `j` and delay horizon `k`, the sum of the weights of all
synapses whose target is `j`, whose source fired in the prior
Integration step, and whose delay is `k`. -/
def arrivals {N : Nat} (c : Connectivity) (s : NetState N) (j : Fin N) (k : Nat) : ℚ :=
  ((c.syns.filter
      (fun syn => (syn.tgt == j.val) && firedAt s syn.src && (syn.delay == k))).map
    Synapse.weight).sum

/-- Modelled from the spec: the Propagation Step body for one target
neuron (§4.3, gather model). The accumulated-input buffer is zeroed and
then receives the pending bucket due now plus all delay-0 arrivals; each
delayed arrival is added to its pending bucket. -/
def propagateAt {N : Nat} (c : Connectivity) (s : NetState N) (j : Fin N) : Neuron :=
  { v := (s j).v
    fired := (s j).fired
    acc := 0 + ((s j).pending 0 + arrivals c s j 0)
    pending := fun k => (s j).pending k + arrivals c s j k }

/-- The Propagation Step applied to every neuron (sequential reference
semantics). -/
def propagateSeq {N : Nat} (c : Connectivity) (s : NetState N) : NetState N :=
  fun j => propagateAt c s j

/-- Modelled from the spec: the raw next potential computed by the
Integration kernel (§4.4) — a fixed discrete (Euler) update consuming
the accumulated input, the decay term, and the stochastic draw. -/
def vRaw {N : Nat} (p : Params) (t : Nat) (s : NetState N) (i : Fin N) : ℚ :=
  (s i).v + p.dt * (p.noiseAmp * noiseFn p.seed t i.val + (s i).acc - p.decay * (s i).v)

/-- Modelled from the spec: the Integration Step body for one neuron
(§4.4) — update the potential, evaluate the firing predicate, and shift
the pending-delay buckets by one step (slot 0 was consumed). -/
def integrateAt {N : Nat} (p : Params) (t : Nat) (s : NetState N) (i : Fin N) : Neuron :=
  { v := vRaw p t s i
    fired := decide (p.threshold ≤ vRaw p t s i)
    acc := (s i).acc
    pending := fun k => (s i).pending (k + 1) }

/-- Modelled from the spec: the kernel-failure check (§7,
`KernelFailure`) — the numerical primitive fails when the raw next
potential leaves the finite representable range `[-vmax, vmax]`. -/
def kernelOk {N : Nat} (p : Params) (t : Nat) (s : NetState N) : Bool :=
  (List.finRange N).all fun i => decide (|vRaw p t s i| ≤ p.vmax)

/-- One full simulation step under the sequential reference semantics:
Propagation then Integration (§4.6). -/
def stepSeq {N : Nat} (p : Params) (c : Connectivity) (t : Nat) (s : NetState N) : NetState N :=
  fun i => integrateAt p t (propagateSeq c s) i

/-- Modelled from the spec: the Parallel Dispatcher's chunk size for
partitioning [0,N) into `T` near-equal contiguous chunks (§4.5). -/
def chunkSize (N T : Nat) : Nat := (N + T - 1) / T

/-- Modelled from the spec: the `t`-th contiguous chunk of neuron
indices assigned to worker thread `t` (§4.5). -/
def chunkIdx (N T t : Nat) : List Nat :=
  (List.range (min ((t + 1) * chunkSize N T) N - t * chunkSize N T)).map
    (fun j => t * chunkSize N T + j)

/-- The concatenation of the first `t` chunks. -/
def chunksFrom (N T : Nat) : Nat → List Nat
  | 0 => []
  | t + 1 => chunksFrom N T t ++ chunkIdx N T t

/-- All neuron indices, grouped into the `T` per-thread chunks. -/
def chunkJoin (N T : Nat) : List Nat := chunksFrom N T T

/-- A parallel phase modelled as index-partitioned writes: each listed
index receives its value computed from the pre-phase state `old`; every
unlisted index keeps its `old` value. The write value depends only on
`old`, which is exactly the partitioned no-race discipline of §5. -/
def writePhase {N : Nat} {α : Type} (f old : Fin N → α) : List Nat → Fin N → α
  | [] => old
  | i :: rest => fun j => if j.val = i then f j else writePhase f old rest j

/-- A phase dispatched over the `T` per-thread chunks (§4.5). -/
def phasePar {N : Nat} {α : Type} (T : Nat) (f old : Fin N → α) : Fin N → α :=
  writePhase f old (chunkJoin N T)

/-- The Propagation Step dispatched over `T` threads. -/
def propagateChunked {N : Nat} (T : Nat) (c : Connectivity) (s : NetState N) : NetState N :=
  phasePar T (propagateAt c s) s

/-- The Integration Step dispatched over `T` threads. -/
def integrateChunked {N : Nat} (T : Nat) (p : Params) (t : Nat) (s : NetState N) : NetState N :=
  phasePar T (integrateAt p t s) s

/-- One full simulation step dispatched over `T` threads, with a barrier
(function composition) between the two phases (§4.5, §4.6). -/
def stepPure {N : Nat} (T : Nat) (p : Params) (c : Connectivity) (t : Nat)
    (s : NetState N) : NetState N :=
  integrateChunked T p t (propagateChunked T c s)

/-- Modelled from the spec: the initial State Buffers built from the
caller-supplied initial potentials (§3 lifecycle) — no neuron has fired,
accumulated input is zero, and all delay buckets are empty. -/
def initState {N : Nat} (v0 : Fin N → ℚ) : NetState N :=
  fun i => { v := v0 i, fired := false, acc := 0, pending := fun _ => 0 }

/-- Zip the four caller-supplied parallel arrays into the synapse list
(§4.1); lengths are validated separately before this is used. -/
def zipSyns : List Nat → List Nat → List ℚ → List Nat → List Synapse
  | s :: ss, t :: ts, w :: ws, d :: ds => ⟨s, t, w, d⟩ :: zipSyns ss ts ws ds
  | _, _, _, _ => []

/-- Modelled from the spec: the Connectivity Table validation (§4.1) —
all four input sequences have equal length and every source and target
index lies in [0, N). -/
def connValid (N : Nat) (srcs tgts : List Nat) (ws : List ℚ) (ds : List Nat) : Bool :=
  (tgts.length == srcs.length) && (ws.length == srcs.length) && (ds.length == srcs.length)
    && srcs.all (· < N) && tgts.all (· < N)

/-- Modelled from the spec: Connectivity Table construction (§4.1) —
fails with `InvalidConnectivity` on any out-of-range index or length
mismatch, otherwise produces the synapse table. -/
def buildConnectivity (N : Nat) (srcs tgts : List Nat) (ws : List ℚ) (ds : List Nat) :
    Except NetError Connectivity :=
  if connValid N srcs tgts ws ds then Except.ok ⟨zipSyns srcs tgts ws ds⟩
  else Except.error NetError.invalidConnectivity

/-- The engine's per-run data: the Connectivity Table (immutable for the
run, §3) together with the mutable State Buffers. -/
structure Engine (N : Nat) where
  conn : Connectivity
  st : NetState N

/-- The Propagation phase on the engine, dispatched over `T` threads. -/
def propagateE {N : Nat} (T : Nat) (e : Engine N) : Engine N :=
  { conn := e.conn, st := propagateChunked T e.conn e.st }

/-- The Integration phase on the engine, dispatched over `T` threads. -/
def integrateE {N : Nat} (T : Nat) (p : Params) (t : Nat) (e : Engine N) : Engine N :=
  { conn := e.conn, st := integrateChunked T p t e.st }

/-- Modelled from the spec: one simulation step with the mid-run failure
path (§4.6, §7) — Propagation, then the kernel check; a kernel failure
aborts the step and reports `KernelFailure`, otherwise Integration
completes the step. -/
def stepE {N : Nat} (T : Nat) (p : Params) (t : Nat) (e : Engine N) :
    Except NetError (Engine N) :=
  let e1 := propagateE T e
  if kernelOk p t e1.st then Except.ok (integrateE T p t e1)
  else Except.error NetError.kernelFailure

/-- Modelled from the spec: the record-stride predicate (§6) — with
stride `k`, the state after every `k`-th completed step is recorded. -/
def recordAt (stride t : Nat) : Bool :=
  (stride != 0) && ((t + 1) % stride == 0)

/-- The per-step record written into the Trajectory Buffer: every
neuron's potential, in index order. -/
def recordOf {N : Nat} (s : NetState N) : List ℚ :=
  (List.finRange N).map fun i => (s i).v

/-- Modelled from the spec: the outcome visible through the status query
(§6) — terminal status, the furthest successfully completed step, the
recorded trajectory, the final engine, and the error code if any. -/
structure RunResult (N : Nat) where
  status : Status
  completedSteps : Nat
  trajectory : List (List ℚ)
  finalEngine : Engine N
  error : Option NetError

/-- Modelled from the spec: the Simulation Loop (§4.6) — repeat
(Propagation → barrier → Integration → barrier) for the remaining step
count, recording at the configured stride; a failed kernel invocation
aborts the remaining steps, keeping the output of the completed ones. -/
def loop {N : Nat} (T : Nat) (p : Params) (stride : Nat) :
    Nat → Nat → Engine N → RunResult N
  | 0, t, e =>
    { status := Status.Completed, completedSteps := t, trajectory := [],
      finalEngine := e, error := none }
  | rem + 1, t, e =>
    match stepE T p t e with
    | Except.error err =>
      { status := Status.Failed, completedSteps := t, trajectory := [],
        finalEngine := e, error := some err }
    | Except.ok e' =>
      let r := loop T p stride rem (t + 1) e'
      { r with
        trajectory := (if recordAt stride t then [recordOf e'.st] else []) ++ r.trajectory }

/-- Modelled from the spec: the run-construction input (§6) — synapse
arrays, model parameters, thread count, total step count, record stride,
and the caller-supplied initial potentials. -/
structure Config (N : Nat) where
  srcs : List Nat
  tgts : List Nat
  weights : List ℚ
  delays : List Nat
  params : Params
  threads : Nat
  steps : Nat
  stride : Nat
  v0 : Fin N → ℚ

/-- Modelled from the spec: a full run (§4.6, §7) — validate the
Connectivity Table and the parameters (construction-time errors are
returned synchronously and no simulation work is performed), then drive
the Simulation Loop from the initial state. -/
def runSim {N : Nat} (cfg : Config N) : RunResult N :=
  match buildConnectivity N cfg.srcs cfg.tgts cfg.weights cfg.delays with
  | Except.error err =>
    { status := Status.Idle, completedSteps := 0, trajectory := [],
      finalEngine := ⟨⟨[]⟩, initState cfg.v0⟩, error := some err }
  | Except.ok c =>
    if 0 < cfg.params.dt then
      loop cfg.threads cfg.params cfg.stride cfg.steps 0 ⟨c, initState cfg.v0⟩
    else
      { status := Status.Idle, completedSteps := 0, trajectory := [],
        finalEngine := ⟨c, initState cfg.v0⟩, error := some NetError.invalidParameter }

/-- Two independent invocations of the engine on the same configuration
(same seed, same parameters): the engine reconstructs all state,
including every per-thread pseudo-random stream, from the configuration
alone (§4.2, §9). -/
def runTwice {N : Nat} (cfg : Config N) : RunResult N × RunResult N :=
  (runSim cfg, runSim cfg)

/-- The sequential reference dynamics iterated from step `t0`:
`iterFrom p c t0 s k` is the state after `k` further steps. -/
def iterFrom {N : Nat} (p : Params) (c : Connectivity) : Nat → NetState N → Nat → NetState N
  | _, s, 0 => s
  | t0, s, k + 1 => iterFrom p c (t0 + 1) (stepSeq p c t0 s) k

/-- The state at the start of step `t` of a run from the caller-supplied
initial potentials (sequential reference semantics). -/
def stateAtStep {N : Nat} (p : Params) (c : Connectivity) (v0 : Fin N → ℚ) (t : Nat) :
    NetState N :=
  iterFrom p c 0 (initState v0) t

/-- Whether neuron `i`'s firing flag is set in the state consumed by the
Propagation pass of step `t`. -/
def firesAt {N : Nat} (p : Params) (c : Connectivity) (v0 : Fin N → ℚ) (i : Fin N)
    (t : Nat) : Bool :=
  (stateAtStep p c v0 t i).fired

/-- The accumulated input delivered to neuron `j` at step `t`: the value
of `j`'s accumulated-input buffer after the Propagation pass of step
`t`, which the Integration pass of step `t` consumes. -/
def accInputAt {N : Nat} (p : Params) (c : Connectivity) (v0 : Fin N → ℚ) (j : Fin N)
    (t : Nat) : ℚ :=
  (propagateSeq c (stateAtStep p c v0 t) j).acc

/-- Modelled from the spec: the scatter formulation of the Propagation
Step (§4.3 responsibility) — walk the synapse list once; for each
synapse whose source fired, add its weight to the target's bucket for
`delay` steps in the future. Used as the specification the gather model
is proved equivalent to. -/
def scatterAdd {N : Nat} (s : NetState N) :
    List Synapse → (Fin N → Nat → ℚ) → Fin N → Nat → ℚ
  | [], pend => pend
  | syn :: rest, pend =>
    scatterAdd s rest
      (if firedAt s syn.src then
        fun j k =>
          if syn.tgt = j.val ∧ syn.delay = k then pend j k + syn.weight else pend j k
      else pend)

/-- Replace the accumulated-input buffer of every neuron. -/
def setAcc {N : Nat} (s : NetState N) (a : Fin N → ℚ) : NetState N :=
  fun j => { s j with acc := a j }

/-- Modelled from the spec: one reference Euler step of the single-neuron
model equation with zero synaptic input (§8) — only the decay term and
the stochastic draw act on the potential. -/
def refStep (p : Params) (i : Nat) (t : Nat) (x : ℚ) : ℚ :=
  x + p.dt * (p.noiseAmp * noiseFn p.seed t i + 0 - p.decay * x)

/-- The reference single-neuron integration with zero input, iterated
from step `t0` and potential `x` for `k` steps. -/
def refTraj (p : Params) (i : Nat) : Nat → ℚ → Nat → ℚ
  | _, x, 0 => x
  | t0, x, k + 1 => refTraj p i (t0 + 1) (refStep p i t0 x) k

/-- The two-neuron, single-synapse Connectivity Table: one directed
synapse from neuron 0 to neuron 1 with weight `w` and delay `d` (§8). -/
def twoConn (w : ℚ) (d : Nat) : Connectivity := ⟨[⟨0, 1, w, d⟩]⟩

/-- Neuron index 0 of the two-neuron network. -/
def nA : Fin 2 := ⟨0, by omega⟩

/-- Neuron index 1 of the two-neuron network. -/
def nB : Fin 2 := ⟨1, by omega⟩

/-! ## Concrete configurations used to witness the conditional theorems -/

/-- A concrete two-neuron configuration with one synapse. -/
def cfgW1 : Config 2 :=
  { srcs := [0], tgts := [1], weights := [2], delays := [1],
    params := { dt := 1, decay := 1/2, threshold := 1, vmax := 100, noiseAmp := 0, seed := 7 },
    threads := 1, steps := 3, stride := 1, v0 := fun i => if i.val = 0 then 2 else 0 }

/-- A concrete synapse-free single-neuron configuration. -/
def cfgW3 : Config 1 :=
  { srcs := [], tgts := [], weights := [], delays := [],
    params := { dt := 1, decay := 1/2, threshold := 10, vmax := 100, noiseAmp := 0, seed := 0 },
    threads := 2, steps := 3, stride := 1, v0 := fun _ => 8 }

/-- The parameters of the concrete two-neuron run used for the
delayed-synapse property: neuron 0 starts at potential 2, halves each
step, and crosses the firing threshold exactly once. -/
def pW4 : Params :=
  { dt := 1, decay := 1/2, threshold := 1, vmax := 100, noiseAmp := 0, seed := 0 }

/-- Initial potentials of the concrete two-neuron run: 2 for the source
neuron, 0 for the target. -/
def v0W4 : Fin 2 → ℚ := fun i => if i.val = 0 then 2 else 0

/-- A malformed configuration: N = 10 but one target index is 10. -/
def cfgW5 : Config 10 :=
  { srcs := [0], tgts := [10], weights := [1], delays := [0],
    params := { dt := 1, decay := 0, threshold := 1, vmax := 100, noiseAmp := 0, seed := 0 },
    threads := 4, steps := 100, stride := 1, v0 := fun _ => 0 }

/-- A configuration whose run fails mid-way: the potential doubles every
step and leaves the kernel's finite range `[-5, 5]` at step 2. -/
def cfgW6 : Config 1 :=
  { srcs := [], tgts := [], weights := [], delays := [],
    params := { dt := 1, decay := -1, threshold := 100, vmax := 5, noiseAmp := 0, seed := 0 },
    threads := 1, steps := 5, stride := 1, v0 := fun _ => 1 }

/-- A zero-step configuration. -/
def cfgW8 : Config 3 :=
  { srcs := [0, 1], tgts := [1, 2], weights := [1, -1], delays := [0, 2],
    params := { dt := 1, decay := 1, threshold := 1, vmax := 100, noiseAmp := 1, seed := 42 },
    threads := 2, steps := 0, stride := 1, v0 := fun _ => 1 }

/-- A small valid configuration used to observe connectivity
immutability. -/
def cfgW10 : Config 2 :=
  { srcs := [0], tgts := [1], weights := [3], delays := [0],
    params := { dt := 1, decay := 1, threshold := 1, vmax := 100, noiseAmp := 0, seed := 0 },
    threads := 1, steps := 2, stride := 1, v0 := fun _ => 0 }

/-! ## Dispatcher lemmas: chunk coverage and order independence -/

lemma writePhase_apply {N : Nat} {α : Type} (f old : Fin N → α) :
    ∀ (l : List Nat) (j : Fin N),
      writePhase f old l j = if j.val ∈ l then f j else old j := by
  intro l
  induction l with
  | nil => intro j; simp [writePhase]
  | cons i rest ih =>
    intro j
    by_cases h : j.val = i
    · simp [writePhase, h]
    · simp [writePhase, h, ih j]

/-- Processing the indices of a phase in any order, with any chunking
and even with repeats, yields the same result as long as every index is
covered: each write depends only on the pre-phase state. -/
lemma writePhase_covers {N : Nat} {α : Type} (f old : Fin N → α) (l : List Nat)
    (hcov : ∀ j : Fin N, j.val ∈ l) : writePhase f old l = f := by
  funext j
  rw [writePhase_apply, if_pos (hcov j)]

lemma chunkSize_pos {N T : Nat} (hN : 0 < N) (hT : 0 < T) : 0 < chunkSize N T :=
  Nat.div_pos (by omega) hT

lemma le_mul_chunkSize {N T : Nat} (hT : 0 < T) : N ≤ T * chunkSize N T := by
  have hmod := Nat.div_add_mod (N + T - 1) T
  have hlt : (N + T - 1) % T < T := Nat.mod_lt _ hT
  simp only [chunkSize]
  omega

lemma mem_chunkIdx {N T : Nat} (i : Nat) (hiN : i < N) (hc : 0 < chunkSize N T) :
    i ∈ chunkIdx N T (i / chunkSize N T) := by
  have h1 : chunkSize N T * (i / chunkSize N T) + i % chunkSize N T = i :=
    Nat.div_add_mod i (chunkSize N T)
  have h2 : i % chunkSize N T < chunkSize N T := Nat.mod_lt i hc
  have h3 : (i / chunkSize N T + 1) * chunkSize N T
      = i / chunkSize N T * chunkSize N T + chunkSize N T := Nat.succ_mul _ _
  have h4 : i / chunkSize N T * chunkSize N T = chunkSize N T * (i / chunkSize N T) :=
    Nat.mul_comm _ _
  simp only [chunkIdx, List.mem_map, List.mem_range]
  refine ⟨i - i / chunkSize N T * chunkSize N T, ?_, by omega⟩
  omega

lemma mem_chunksFrom {N T : Nat} {i t : Nat} (hi : i ∈ chunkIdx N T t) :
    ∀ T', t < T' → i ∈ chunksFrom N T T' := by
  intro T'
  induction T' with
  | zero => omega
  | succ T'' ih =>
    intro ht
    by_cases h : t < T''
    · exact List.mem_append_left _ (ih h)
    · have : t = T'' := by omega
      subst this
      exact List.mem_append_right _ hi

/-- Every neuron index is covered by some thread's chunk (§4.5). -/
lemma mem_chunkJoin {N T : Nat} (hT : 0 < T) (j : Fin N) : j.val ∈ chunkJoin N T := by
  have hN : 0 < N := j.pos
  have hc : 0 < chunkSize N T := chunkSize_pos hN hT
  have hmem := mem_chunkIdx (T := T) j.val j.isLt hc
  have ht : j.val / chunkSize N T < T := by
    have hle := le_mul_chunkSize (N := N) hT
    exact (Nat.div_lt_iff_lt_mul hc).2 (by omega)
  exact mem_chunksFrom hmem T ht

/-- A chunk-dispatched phase with at least one worker thread computes
the plain per-index map, independently of chunk layout. -/
lemma phasePar_eq {N : Nat} {α : Type} {T : Nat} (hT : 0 < T) (f old : Fin N → α) :
    phasePar T f old = f :=
  writePhase_covers f old _ (fun j => mem_chunkJoin hT j)

lemma propagateChunked_eq {N : Nat} {T : Nat} (hT : 0 < T) (c : Connectivity)
    (s : NetState N) : propagateChunked T c s = propagateSeq c s :=
  phasePar_eq hT _ _

lemma integrateChunked_eq {N : Nat} {T : Nat} (hT : 0 < T) (p : Params) (t : Nat)
    (s : NetState N) : integrateChunked T p t s = fun i => integrateAt p t s i :=
  phasePar_eq hT _ _

lemma stepPure_eq_stepSeq {N : Nat} {T : Nat} (hT : 0 < T) (p : Params) (c : Connectivity)
    (t : Nat) (s : NetState N) : stepPure T p c t s = stepSeq p c t s := by
  unfold stepPure stepSeq
  rw [propagateChunked_eq hT, integrateChunked_eq hT]

/-! ## Propagation lemmas: the scatter walk equals the gather model -/

lemma scatterAdd_apply {N : Nat} (s : NetState N) :
    ∀ (syns : List Synapse) (pend : Fin N → Nat → ℚ) (j : Fin N) (k : Nat),
      scatterAdd s syns pend j k
        = pend j k
          + ((syns.filter
                (fun syn => (syn.tgt == j.val) && firedAt s syn.src && (syn.delay == k))).map
              Synapse.weight).sum := by
  intro syns
  induction syns with
  | nil => intro pend j k; simp [scatterAdd]
  | cons syn rest ih =>
    intro pend j k
    cases hf : firedAt s syn.src with
    | false =>
      simp only [scatterAdd, hf, Bool.false_eq_true, if_false, List.filter_cons]
      simp [hf, ih]
    | true =>
      by_cases htk : syn.tgt = j.val ∧ syn.delay = k
      · obtain ⟨ht, hk⟩ := htk
        simp only [scatterAdd, hf, if_true, List.filter_cons]
        rw [ih]
        simp [ht, hk]
        ring
      · rcases Decidable.not_and_iff_or_not.mp htk with hne | hne
        · simp only [scatterAdd, hf, if_true, List.filter_cons]
          rw [ih]
          simp [hne]
        · simp only [scatterAdd, hf, if_true, List.filter_cons]
          rw [ih]
          simp [hne]

/-! ## Thread-count independence of the per-step semantics -/

lemma stepE_indep {N : Nat} {T1 T2 : Nat} (h1 : 0 < T1) (h2 : 0 < T2) (p : Params)
    (t : Nat) (e : Engine N) : stepE T1 p t e = stepE T2 p t e := by
  unfold stepE propagateE integrateE
  simp only [propagateChunked_eq h1, propagateChunked_eq h2,
    integrateChunked_eq h1, integrateChunked_eq h2]

lemma loop_indep {N : Nat} {T1 T2 : Nat} (h1 : 0 < T1) (h2 : 0 < T2) (p : Params)
    (stride : Nat) : ∀ (rem t : Nat) (e : Engine N),
    loop T1 p stride rem t e = loop T2 p stride rem t e := by
  intro rem
  induction rem with
  | zero => intro t e; rfl
  | succ rem ih =>
    intro t e
    simp only [loop, stepE_indep h1 h2 p t e]
    cases stepE T2 p t e with
    | error err => rfl
    | ok e' => simp only [ih]

/-! ## Claim theorems -/

/-- C1: For every valid initial state and connectivity, running the
simulation with any two positive thread counts (in particular 1, 2 and
8) yields bit-for-bit identical results — the whole `RunResult`,
trajectory included, is independent of thread count; and a dispatched
phase is independent of the order (and chunking) in which the neuron
indices are processed, as long as every index is covered. -/
theorem run_independent_of_thread_count {N : Nat} (cfg : Config N) (T1 T2 : Nat)
    (h1 : 0 < T1) (h2 : 0 < T2) :
    runSim { cfg with threads := T1 } = runSim { cfg with threads := T2 }
    ∧ ∀ (α : Type) (f old : Fin N → α) (l1 l2 : List Nat),
        (∀ j : Fin N, j.val ∈ l1) → (∀ j : Fin N, j.val ∈ l2) →
        writePhase f old l1 = writePhase f old l2 := by
  constructor
  · obtain ⟨srcs, tgts, ws, ds, p, T, steps, stride, v0⟩ := cfg
    simp only [runSim]
    cases hb : buildConnectivity N srcs tgts ws ds with
    | error err => rfl
    | ok c =>
      by_cases hdt : 0 < p.dt
      · simp only [if_pos hdt]
        exact loop_indep h1 h2 p stride steps 0 ⟨c, initState v0⟩
      · simp only [if_neg hdt]
  · intro α f old l1 l2 hc1 hc2
    rw [writePhase_covers f old l1 hc1, writePhase_covers f old l2 hc2]

/-- Witness for C1 at a concrete two-neuron configuration and thread
counts 1 and 2. -/
theorem run_independent_of_thread_count_witness :
    runSim { cfgW1 with threads := 1 } = runSim { cfgW1 with threads := 2 } :=
  (run_independent_of_thread_count cfgW1 1 2 (by norm_num) (by norm_num)).1

/-- C2: In every Propagation step, walking every synapse once and adding
its weight to its target's bucket whenever its source fired (the scatter
walk of §4.3) yields exactly the gather-model result: each target's
bucket receives the filtered weight sum — each contribution applied
exactly once, none lost, none duplicated — and the accumulated-input
buffer equals the pending input plus the sum of the weights of all
delay-0 synapses whose source fired. -/
theorem propagation_no_lost_or_duplicated {N : Nat} (c : Connectivity) (s : NetState N)
    (j : Fin N) (k : Nat) :
    scatterAdd s c.syns (fun j' k' => (s j').pending k') j k
        = (s j).pending k + arrivals c s j k
    ∧ (propagateAt c s j).pending k = (s j).pending k + arrivals c s j k
    ∧ (propagateAt c s j).acc = 0 + ((s j).pending 0 + arrivals c s j 0) := by
  refine ⟨?_, rfl, rfl⟩
  rw [scatterAdd_apply]
  rfl

/-- C7: the accumulated-input buffer is (conceptually re-)zeroed by every
Propagation pass and fully consumed by the Integration pass that
follows: replacing the accumulated-input buffers of the pre-step state
by arbitrary values does not change the step's outcome (no carryover
across steps), and the post-Propagation buffer holds exactly zero plus
the gathered input for the current step. -/
theorem acc_zeroed_and_consumed {N : Nat} (p : Params) (c : Connectivity) (t : Nat)
    (s : NetState N) (a : Fin N → ℚ) :
    stepSeq p c t (setAcc s a) = stepSeq p c t s
    ∧ ∀ j, (propagateAt c (setAcc s a) j).acc = 0 + ((s j).pending 0 + arrivals c s j 0) :=
  ⟨rfl, fun _ => rfl⟩

/-- C9: re-running an identical configuration (same initial state,
connectivity, parameters and seed) produces identical output, including
the stochastic contributions: both invocations of `runTwice` return the
same `RunResult`, because the engine reconstructs every pseudo-random
stream deterministically from the configuration (§9). -/
theorem rerun_same_seed_identical {N : Nat} (cfg : Config N) :
    (runTwice cfg).1 = (runTwice cfg).2 := rfl

/-! ## Construction-time validation and connectivity immutability -/

lemma stepE_conn {N : Nat} {T : Nat} {p : Params} {t : Nat} {e e' : Engine N}
    (h : stepE T p t e = Except.ok e') : e'.conn = e.conn := by
  unfold stepE at h
  by_cases hk : kernelOk p t (propagateE T e).st = true
  · simp only [hk, if_true] at h
    cases h
    rfl
  · simp only [hk, if_false] at h
    cases h

lemma loop_conn {N : Nat} (T : Nat) (p : Params) (stride : Nat) :
    ∀ (rem t : Nat) (e : Engine N), (loop T p stride rem t e).finalEngine.conn = e.conn := by
  intro rem
  induction rem with
  | zero => intro t e; rfl
  | succ rem ih =>
    intro t e
    simp only [loop]
    cases hs : stepE T p t e with
    | error err => rfl
    | ok e' =>
      simp only []
      rw [ih (t + 1) e', stepE_conn hs]

/-- C5: Connectivity Table construction fails with `InvalidConnectivity`
whenever any source or target index is out of [0, N) or the input
sequence lengths mismatch, and in that case the run never starts: the
result reports zero completed steps, an empty trajectory, and untouched
initial State Buffers. -/
theorem invalid_connectivity_rejected {N : Nat} (cfg : Config N)
    (h : (∃ i ∈ cfg.srcs, N ≤ i) ∨ (∃ i ∈ cfg.tgts, N ≤ i)
        ∨ cfg.tgts.length ≠ cfg.srcs.length ∨ cfg.weights.length ≠ cfg.srcs.length
        ∨ cfg.delays.length ≠ cfg.srcs.length) :
    buildConnectivity N cfg.srcs cfg.tgts cfg.weights cfg.delays
        = Except.error NetError.invalidConnectivity
    ∧ runSim cfg
        = { status := Status.Idle, completedSteps := 0, trajectory := [],
            finalEngine := ⟨⟨[]⟩, initState cfg.v0⟩,
            error := some NetError.invalidConnectivity } := by
  cases hcv : connValid N cfg.srcs cfg.tgts cfg.weights cfg.delays with
  | true =>
    exfalso
    simp only [connValid, Bool.and_eq_true, beq_iff_eq, List.all_eq_true,
      decide_eq_true_eq] at hcv
    obtain ⟨⟨⟨⟨hlt, hlw⟩, hld⟩, hs⟩, ht⟩ := hcv
    rcases h with ⟨i, hm, hge⟩ | ⟨i, hm, hge⟩ | hne | hne | hne
    · exact absurd (hs i hm) (by omega)
    · exact absurd (ht i hm) (by omega)
    · exact hne hlt
    · exact hne hlw
    · exact hne hld
  | false =>
    have hb : buildConnectivity N cfg.srcs cfg.tgts cfg.weights cfg.delays
        = Except.error NetError.invalidConnectivity := by
      simp [buildConnectivity, hcv]
    exact ⟨hb, by simp [runSim, hb]⟩

/-- Witness for C5: N = 10 with target index 10 is rejected at
construction and no simulation work happens. -/
theorem invalid_connectivity_rejected_witness :
    buildConnectivity 10 cfgW5.srcs cfgW5.tgts cfgW5.weights cfgW5.delays
        = Except.error NetError.invalidConnectivity
    ∧ runSim cfgW5
        = { status := Status.Idle, completedSteps := 0, trajectory := [],
            finalEngine := ⟨⟨[]⟩, initState cfgW5.v0⟩,
            error := some NetError.invalidConnectivity } :=
  invalid_connectivity_rejected cfgW5
    (Or.inr (Or.inl ⟨10, by simp [cfgW5], by omega⟩))

/-- C8: running for 0 steps immediately reports `Completed`, records
nothing, and leaves the State Buffers equal to the initial state built
from the caller-supplied potentials. -/
theorem zero_steps_completed {N : Nat} (cfg : Config N) (c : Connectivity)
    (h0 : cfg.steps = 0)
    (hb : buildConnectivity N cfg.srcs cfg.tgts cfg.weights cfg.delays = Except.ok c)
    (hdt : 0 < cfg.params.dt) :
    runSim cfg
      = { status := Status.Completed, completedSteps := 0, trajectory := [],
          finalEngine := ⟨c, initState cfg.v0⟩, error := none } := by
  simp [runSim, hb, hdt, h0, loop]

/-- Witness for C8 at a concrete three-neuron, two-synapse, zero-step
configuration. -/
theorem zero_steps_completed_witness :
    runSim cfgW8
      = { status := Status.Completed, completedSteps := 0, trajectory := [],
          finalEngine := ⟨⟨[⟨0, 1, 1, 0⟩, ⟨1, 2, -1, 2⟩]⟩, initState cfgW8.v0⟩,
          error := none } :=
  zero_steps_completed cfgW8 ⟨[⟨0, 1, 1, 0⟩, ⟨1, 2, -1, 2⟩]⟩ rfl rfl (by norm_num [cfgW8])

/-- C10: the Connectivity Table is built once at run start and never
mutated: the Propagation and Integration phases leave it unchanged, the
final engine of a run still holds exactly the table built at start, and
its size never changes (no dynamic resizing). -/
theorem connectivity_never_mutated {N : Nat} (cfg : Config N) (c : Connectivity)
    (hb : buildConnectivity N cfg.srcs cfg.tgts cfg.weights cfg.delays = Except.ok c) :
    (runSim cfg).finalEngine.conn = c
    ∧ (runSim cfg).finalEngine.conn.syns.length = c.syns.length
    ∧ (∀ (T : Nat) (e : Engine N), (propagateE T e).conn = e.conn)
    ∧ (∀ (T : Nat) (p : Params) (t : Nat) (e : Engine N), (integrateE T p t e).conn = e.conn) := by
  have hconn : (runSim cfg).finalEngine.conn = c := by
    by_cases hdt : 0 < cfg.params.dt
    · simp only [runSim, hb, hdt, if_true]
      exact loop_conn cfg.threads cfg.params cfg.stride cfg.steps 0 ⟨c, initState cfg.v0⟩
    · simp [runSim, hb, hdt]
  exact ⟨hconn, by rw [hconn], fun T e => rfl, fun T p t e => rfl⟩

/-- Witness for C10 at a concrete two-neuron, one-synapse run. -/
theorem connectivity_never_mutated_witness :
    (runSim cfgW10).finalEngine.conn = ⟨[⟨0, 1, 3, 0⟩]⟩ :=
  (connectivity_never_mutated cfgW10 ⟨[⟨0, 1, 3, 0⟩]⟩ rfl).1

/-! ## Mid-run failure: completed prefix preserved -/

lemma stepE_error {N : Nat} {T : Nat} {p : Params} {t : Nat} {e : Engine N} {err : NetError}
    (h : stepE T p t e = Except.error err) : err = NetError.kernelFailure := by
  unfold stepE at h
  by_cases hk : kernelOk p t (propagateE T e).st = true
  · simp only [hk, if_true] at h
    cases h
  · simp only [hk, if_false] at h
    cases h
    rfl

lemma loop_completed_ge {N : Nat} (T : Nat) (p : Params) (stride : Nat) :
    ∀ (rem t : Nat) (e : Engine N), t ≤ (loop T p stride rem t e).completedSteps := by
  intro rem
  induction rem with
  | zero => intro t e; exact Nat.le_refl t
  | succ rem ih =>
    intro t e
    simp only [loop]
    cases hs : stepE T p t e with
    | error err => exact Nat.le_refl t
    | ok e' =>
      simp only []
      exact Nat.le_trans (Nat.le_succ t) (ih (t + 1) e')

lemma loop_failed_lt {N : Nat} (T : Nat) (p : Params) (stride : Nat) :
    ∀ (rem t : Nat) (e : Engine N), (loop T p stride rem t e).status = Status.Failed →
      (loop T p stride rem t e).completedSteps < t + rem := by
  intro rem
  induction rem with
  | zero => intro t e h; exact absurd h (by simp [loop])
  | succ rem ih =>
    intro t e h
    simp only [loop] at h ⊢
    cases hs : stepE T p t e with
    | error err => simp [hs]
    | ok e' =>
      rw [hs] at h
      simp only [] at h ⊢
      have := ih (t + 1) e' h
      omega

lemma loop_failed_error {N : Nat} (T : Nat) (p : Params) (stride : Nat) :
    ∀ (rem t : Nat) (e : Engine N), (loop T p stride rem t e).status = Status.Failed →
      (loop T p stride rem t e).error = some NetError.kernelFailure := by
  intro rem
  induction rem with
  | zero => intro t e h; exact absurd h (by simp [loop])
  | succ rem ih =>
    intro t e h
    simp only [loop] at h ⊢
    cases hs : stepE T p t e with
    | error err => simp [stepE_error hs]
    | ok e' =>
      rw [hs] at h
      simp only [] at h ⊢
      exact ih (t + 1) e' h

lemma loop_failed_keeps_done {N : Nat} (T : Nat) (p : Params) (stride : Nat) :
    ∀ (rem t : Nat) (e : Engine N), (loop T p stride rem t e).status = Status.Failed →
      loop T p stride ((loop T p stride rem t e).completedSteps - t) t e
        = { status := Status.Completed,
            completedSteps := (loop T p stride rem t e).completedSteps,
            trajectory := (loop T p stride rem t e).trajectory,
            finalEngine := (loop T p stride rem t e).finalEngine,
            error := none } := by
  intro rem
  induction rem with
  | zero => intro t e h; exact absurd h (by simp [loop])
  | succ rem ih =>
    intro t e h
    simp only [loop] at h ⊢
    cases hs : stepE T p t e with
    | error err =>
      simp only [hs, Nat.sub_self]
      rfl
    | ok e' =>
      rw [hs] at h
      simp only [] at h ⊢
      have hge := loop_completed_ge T p stride rem (t + 1) e'
      have hsub : (loop T p stride rem (t + 1) e').completedSteps - t
          = ((loop T p stride rem (t + 1) e').completedSteps - (t + 1)) + 1 := by omega
      rw [hsub]
      simp only [loop, hs]
      rw [ih (t + 1) e' h]

/-- C6: if a kernel invocation fails mid-run, the run ends `Failed` with
error code `KernelFailure`, strictly fewer steps than requested were
executed (no further steps run after the failure), and the Trajectory
Buffer entries for the steps completed before the failure are exactly
the output of a successful run of that many steps — the completed prefix
is preserved unchanged and reported as the furthest completed step. -/
theorem midrun_failure_preserves_completed {N : Nat} (cfg : Config N)
    (h : (runSim cfg).status = Status.Failed) :
    (runSim { cfg with steps := (runSim cfg).completedSteps }).status = Status.Completed
    ∧ (runSim { cfg with steps := (runSim cfg).completedSteps }).trajectory
        = (runSim cfg).trajectory
    ∧ (runSim { cfg with steps := (runSim cfg).completedSteps }).finalEngine
        = (runSim cfg).finalEngine
    ∧ (runSim { cfg with steps := (runSim cfg).completedSteps }).completedSteps
        = (runSim cfg).completedSteps
    ∧ (runSim cfg).completedSteps < cfg.steps
    ∧ (runSim cfg).error = some NetError.kernelFailure := by
  obtain ⟨srcs, tgts, ws, ds, p, T, steps, stride, v0⟩ := cfg
  simp only [runSim] at h ⊢
  cases hb : buildConnectivity N srcs tgts ws ds with
  | error err =>
    rw [hb] at h
    exact absurd h (by simp)
  | ok c =>
    rw [hb] at h
    by_cases hdt : 0 < p.dt
    · simp only [hdt, if_true] at h ⊢
      have hpre := loop_failed_keeps_done T p stride steps 0 ⟨c, initState v0⟩ h
      rw [Nat.sub_zero] at hpre
      rw [hpre]
      refine ⟨rfl, rfl, rfl, rfl, ?_, loop_failed_error T p stride steps 0 _ h⟩
      have := loop_failed_lt T p stride steps 0 ⟨c, initState v0⟩ h
      omega
    · simp only [hdt, if_false] at h
      exact absurd h (by simp)

/-- Witness for C6: a concrete run whose potential leaves the kernel
range at step 2 of 5 stops after completing 2 steps. -/
theorem midrun_failure_preserves_completed_witness :
    (runSim cfgW6).completedSteps < cfgW6.steps :=
  (midrun_failure_preserves_completed cfgW6 (by
    norm_num [runSim, cfgW6, buildConnectivity, connValid, zipSyns, loop, stepE,
      propagateE, integrateE, kernelOk, propagateChunked, integrateChunked, phasePar,
      chunkJoin, chunksFrom, chunkIdx, chunkSize, writePhase, propagateAt, integrateAt,
      vRaw, arrivals, firedAt, noiseFn, initState, recordAt, recordOf, List.finRange,
      List.all, stepSeq, propagateSeq])).2.2.2.2.1

/-! ## Trajectory characterization and the zero-synapse reference -/

lemma iterFrom_succ {N : Nat} (p : Params) (c : Connectivity) :
    ∀ (k t0 : Nat) (s : NetState N),
      iterFrom p c t0 s (k + 1) = stepSeq p c (t0 + k) (iterFrom p c t0 s k) := by
  intro k
  induction k with
  | zero => intro t0 s; simp [iterFrom]
  | succ k ih =>
    intro t0 s
    show iterFrom p c (t0 + 1) (stepSeq p c t0 s) (k + 1)
        = stepSeq p c (t0 + (k + 1)) (iterFrom p c (t0 + 1) (stepSeq p c t0 s) k)
    rw [ih (t0 + 1) (stepSeq p c t0 s), Nat.add_assoc, Nat.add_comm 1 k]

lemma stepE_ok_st {N : Nat} {T : Nat} (hT : 0 < T) {p : Params} {t : Nat} {e e' : Engine N}
    (h : stepE T p t e = Except.ok e') : e'.st = stepSeq p e.conn t e.st := by
  unfold stepE at h
  by_cases hk : kernelOk p t (propagateE T e).st = true
  · simp only [hk, if_true] at h
    cases h
    show (integrateE T p t (propagateE T e)).st = _
    unfold integrateE propagateE
    simp only [propagateChunked_eq hT, integrateChunked_eq hT]
    rfl
  · simp only [hk, if_false] at h
    cases h

lemma loop_traj {N : Nat} {T : Nat} (hT : 0 < T) (p : Params) (stride : Nat) :
    ∀ (rem t : Nat) (e : Engine N),
      (loop T p stride rem t e).trajectory
        = ((List.range ((loop T p stride rem t e).completedSteps - t)).filter
              (fun j => recordAt stride (t + j))).map
            (fun j => recordOf (iterFrom p e.conn t e.st (j + 1))) := by
  intro rem
  induction rem with
  | zero => intro t e; simp [loop]
  | succ rem ih =>
    intro t e
    simp only [loop]
    cases hs : stepE T p t e with
    | error err => simp
    | ok e' =>
      simp only []
      have hge := loop_completed_ge T p stride rem (t + 1) e'
      have hsub : (loop T p stride rem (t + 1) e').completedSteps - t
          = ((loop T p stride rem (t + 1) e').completedSteps - (t + 1)) + 1 := by omega
      rw [hsub, List.range_succ_eq_map, List.filter_cons, List.filter_map]
      rw [ih (t + 1) e', stepE_conn hs, stepE_ok_st hT hs]
      have hfilt : ((fun j => recordAt stride (t + j)) ∘ Nat.succ)
          = (fun j => recordAt stride (t + 1 + j)) := by
        funext j
        show recordAt stride (t + (j + 1)) = recordAt stride (t + 1 + j)
        congr 1
        omega
      rw [hfilt]
      simp only [Nat.add_zero]
      by_cases hr : recordAt stride t = true
      · simp only [hr, if_true, List.map_cons, List.map_map]
        rfl
      · simp only [hr, Bool.false_eq_true, if_false, List.map_map]
        rfl

lemma arrivals_empty {N : Nat} (s : NetState N) (j : Fin N) (k : Nat) :
    arrivals ⟨[]⟩ s j k = 0 := rfl

lemma iterFrom_no_syn {N : Nat} (p : Params) :
    ∀ (k t0 : Nat) (s : NetState N), (∀ i m, (s i).pending m = 0) →
      (∀ i, (iterFrom p ⟨[]⟩ t0 s k i).v = refTraj p i.val t0 ((s i).v) k)
      ∧ (∀ i m, (iterFrom p ⟨[]⟩ t0 s k i).pending m = 0) := by
  intro k
  induction k with
  | zero => intro t0 s hp; exact ⟨fun i => rfl, hp⟩
  | succ k ih =>
    intro t0 s hp
    show (∀ i, (iterFrom p ⟨[]⟩ (t0 + 1) (stepSeq p ⟨[]⟩ t0 s) k i).v = _) ∧ _
    have hp' : ∀ i m, (stepSeq p ⟨[]⟩ t0 s i).pending m = 0 := by
      intro i m
      show (propagateSeq ⟨[]⟩ s i).pending (m + 1) = 0
      show (s i).pending (m + 1) + arrivals ⟨[]⟩ s i (m + 1) = 0
      rw [hp, arrivals_empty, add_zero]
    obtain ⟨ihv, ihp⟩ := ih (t0 + 1) (stepSeq p ⟨[]⟩ t0 s) hp'
    refine ⟨fun i => ?_, ihp⟩
    rw [ihv i]
    show refTraj p i.val (t0 + 1) ((stepSeq p ⟨[]⟩ t0 s i).v) k
        = refTraj p i.val (t0 + 1) (refStep p i.val t0 ((s i).v)) k
    congr 1
    show vRaw p t0 (propagateSeq ⟨[]⟩ s) i = refStep p i.val t0 ((s i).v)
    unfold vRaw refStep
    show (s i).v + p.dt * (p.noiseAmp * noiseFn p.seed t0 i.val
        + (0 + ((s i).pending 0 + arrivals ⟨[]⟩ s i 0)) - p.decay * (s i).v) = _
    rw [hp, arrivals_empty]
    norm_num

/-- C3: in a network with zero synapses, every neuron's recorded
trajectory equals the reference single-neuron integration of the model
equation with zero input at every recorded step: the run's trajectory is
exactly the per-recorded-step list of reference potentials. -/
theorem zero_synapses_matches_reference {N : Nat} (cfg : Config N)
    (h1 : cfg.srcs = []) (h2 : cfg.tgts = []) (h3 : cfg.weights = [])
    (h4 : cfg.delays = []) (hT : 0 < cfg.threads) :
    (runSim cfg).trajectory
      = ((List.range (runSim cfg).completedSteps).filter (recordAt cfg.stride)).map
          (fun t => (List.finRange N).map
            (fun i => refTraj cfg.params i.val 0 (cfg.v0 i) (t + 1))) := by
  obtain ⟨srcs, tgts, ws, ds, p, T, steps, stride, v0⟩ := cfg
  simp only [] at h1 h2 h3 h4 hT
  subst h1 h2 h3 h4
  have hb : buildConnectivity N [] [] [] [] = Except.ok ⟨[]⟩ := rfl
  by_cases hdt : 0 < p.dt
  · simp only [runSim, hb, hdt, if_true]
    rw [loop_traj hT p stride steps 0 ⟨⟨[]⟩, initState v0⟩]
    simp only [Nat.sub_zero, Nat.zero_add]
    apply List.map_congr_left
    intro j hj
    show recordOf (iterFrom p ⟨[]⟩ 0 (initState v0) (j + 1)) = _
    unfold recordOf
    apply List.map_congr_left
    intro i hi
    have := (iterFrom_no_syn p (j + 1) 0 (initState v0) (fun i m => rfl)).1 i
    rw [this]
    rfl
  · simp only [runSim, hb, hdt, if_false]
    simp

/-- Witness for C3 at a concrete synapse-free configuration. -/
theorem zero_synapses_matches_reference_witness :
    (runSim cfgW3).trajectory
      = ((List.range (runSim cfgW3).completedSteps).filter (recordAt cfgW3.stride)).map
          (fun t => (List.finRange 1).map
            (fun i => refTraj cfgW3.params i.val 0 (cfgW3.v0 i) (t + 1))) :=
  zero_synapses_matches_reference cfgW3 rfl rfl rfl rfl (by norm_num [cfgW3])

/-! ## The two-neuron, single-synapse network: delayed delivery -/

lemma arrivals_twoConn_B {w : ℚ} {d : Nat} (S : NetState 2) (m : Nat) :
    arrivals (twoConn w d) S nB m = if (S nA).fired = true ∧ d = m then w else 0 := by
  have hfa : firedAt S 0 = (S nA).fired := rfl
  by_cases hf : (S nA).fired = true <;> by_cases hm : d = m <;>
    simp [arrivals, twoConn, nB, List.filter_cons, hfa, hf, hm]

lemma arrivals_twoConn_A {w : ℚ} {d : Nat} (S : NetState 2) (m : Nat) :
    arrivals (twoConn w d) S nA m = 0 := by
  simp [arrivals, twoConn, nA, List.filter_cons]

lemma stateAtStep_succ {N : Nat} (p : Params) (c : Connectivity) (v0 : Fin N → ℚ)
    (u : Nat) : stateAtStep p c v0 (u + 1) = stepSeq p c u (stateAtStep p c v0 u) := by
  unfold stateAtStep
  rw [iterFrom_succ]
  simp [Nat.zero_add]

lemma pendB_char (p : Params) (w : ℚ) (d : Nat) (v0 : Fin 2 → ℚ) :
    ∀ (u k : Nat), (stateAtStep p (twoConn w d) v0 u nB).pending k
      = if k < d ∧ d - k ≤ u
            ∧ firesAt p (twoConn w d) v0 nA (u - (d - k)) = true then w else 0 := by
  intro u
  induction u with
  | zero =>
    intro k
    show (0 : ℚ) = _
    rw [if_neg]
    rintro ⟨h1, h2, _⟩
    omega
  | succ u ih =>
    intro k
    rw [stateAtStep_succ]
    have hstep : (stepSeq p (twoConn w d) u (stateAtStep p (twoConn w d) v0 u) nB).pending k
        = (stateAtStep p (twoConn w d) v0 u nB).pending (k + 1)
          + arrivals (twoConn w d) (stateAtStep p (twoConn w d) v0 u) nB (k + 1) := rfl
    rw [hstep, ih (k + 1), arrivals_twoConn_B]
    have hfired : (stateAtStep p (twoConn w d) v0 u nA).fired
        = firesAt p (twoConn w d) v0 nA u := rfl
    rw [hfired]
    set F := firesAt p (twoConn w d) v0 nA with hF
    by_cases hA : (k + 1 < d ∧ d - (k + 1) ≤ u ∧ F (u - (d - (k + 1))) = true)
    · obtain ⟨hA1, hA2, hA3⟩ := hA
      rw [if_pos ⟨hA1, hA2, hA3⟩]
      rw [if_neg (by rintro ⟨-, hd⟩; omega :
        ¬(F u = true ∧ d = k + 1))]
      rw [if_pos ⟨by omega, by omega, by
        rw [show u + 1 - (d - k) = u - (d - (k + 1)) by omega]; exact hA3⟩]
      norm_num
    · by_cases hB : (F u = true ∧ d = k + 1)
      · obtain ⟨hB1, hB2⟩ := hB
        rw [if_neg hA, if_pos ⟨hB1, hB2⟩]
        rw [if_pos ⟨by omega, by omega, by
          rw [show u + 1 - (d - k) = u by omega]; exact hB1⟩]
        norm_num
      · rw [if_neg hA, if_neg hB, if_neg ?_]
        · norm_num
        · rintro ⟨hC1, hC2, hC3⟩
          by_cases hd : d = k + 1
          · subst hd
            rw [show u + 1 - (k + 1 - k) = u by omega] at hC3
            exact hB ⟨hC3, rfl⟩
          · have hlt : k + 1 < d := by omega
            exact hA ⟨hlt, by omega, by
              rw [show u - (d - (k + 1)) = u + 1 - (d - k) by omega]; exact hC3⟩

lemma accInputAt_twoConn (p : Params) (w : ℚ) (d : Nat) (v0 : Fin 2 → ℚ) (s : Nat) :
    accInputAt p (twoConn w d) v0 nB s
      = if d ≤ s ∧ firesAt p (twoConn w d) v0 nA (s - d) = true then w else 0 := by
  have hacc : accInputAt p (twoConn w d) v0 nB s
      = 0 + ((stateAtStep p (twoConn w d) v0 s nB).pending 0
          + arrivals (twoConn w d) (stateAtStep p (twoConn w d) v0 s) nB 0) := rfl
  have hfired : (stateAtStep p (twoConn w d) v0 s nA).fired
      = firesAt p (twoConn w d) v0 nA s := rfl
  rw [hacc, pendB_char, arrivals_twoConn_B, hfired]
  simp only [Nat.sub_zero]
  split_ifs with h1 h2 h3 h3 h2 h3 h3
  · exact absurd h2.2 (by omega)
  · exact absurd h2.2 (by omega)
  · norm_num
  · exact absurd ⟨h1.2.1, h1.2.2⟩ h3
  · norm_num
  · exact absurd ⟨by omega, by rw [show s - d = s from by omega]; exact h2.1⟩ h3
  · by_cases hd : d = 0
    · have hFs := h3.2
      rw [show s - d = s from by omega] at hFs
      exact absurd ⟨hFs, hd⟩ h2
    · exact absurd ⟨by omega, h3.1, h3.2⟩ h1
  · norm_num

/-- C4: in the two-neuron network with the single directed synapse
`0 → 1` of weight `w ≠ 0` and delay `d`, if the source neuron fires at
step `t` (and only then), the target's accumulated input from that
synapse is delivered exactly at step `t + d`: it equals `w` gated by a
firing `d` steps earlier, and it is non-zero exactly at step `t + d`,
zero at every other step. -/
theorem single_synapse_delivers_at_t_plus_d (p : Params) (w : ℚ) (d : Nat)
    (v0 : Fin 2 → ℚ) (t : Nat) (hw : w ≠ 0)
    (hfire : ∀ u, firesAt p (twoConn w d) v0 nA u = true ↔ u = t) :
    (∀ s, accInputAt p (twoConn w d) v0 nB s
        = if d ≤ s ∧ firesAt p (twoConn w d) v0 nA (s - d) = true then w else 0)
    ∧ (∀ s, accInputAt p (twoConn w d) v0 nB s ≠ 0 ↔ s = t + d) := by
  refine ⟨fun s => accInputAt_twoConn p w d v0 s, fun s => ?_⟩
  rw [accInputAt_twoConn p w d v0 s]
  by_cases hs : (d ≤ s ∧ firesAt p (twoConn w d) v0 nA (s - d) = true)
  · rw [if_pos hs]
    have hsd := (hfire (s - d)).mp hs.2
    constructor
    · intro _
      omega
    · intro _
      exact hw
  · rw [if_neg hs]
    constructor
    · intro h0
      exact absurd rfl h0
    · intro hst
      exact absurd ⟨by omega, (hfire (s - d)).mpr (by omega)⟩ hs

lemma w4_A_char : ∀ u : Nat,
    (stateAtStep pW4 (twoConn 1 1) v0W4 u nA).v = 2 * (1/2 : ℚ) ^ u
    ∧ ((stateAtStep pW4 (twoConn 1 1) v0W4 u nA).fired = true ↔ u = 1)
    ∧ (∀ m, (stateAtStep pW4 (twoConn 1 1) v0W4 u nA).pending m = 0) := by
  intro u
  induction u with
  | zero =>
    refine ⟨?_, ?_, fun m => rfl⟩
    · show v0W4 nA = 2 * (1/2 : ℚ) ^ 0
      norm_num [v0W4, nA]
    · show (false = true) ↔ (0 = 1)
      simp
  | succ u ih =>
    obtain ⟨ihv, ihf, ihp⟩ := ih
    rw [stateAtStep_succ]
    have hvr : (stepSeq pW4 (twoConn 1 1) u (stateAtStep pW4 (twoConn 1 1) v0W4 u) nA).v
        = (stateAtStep pW4 (twoConn 1 1) v0W4 u nA).v
          + pW4.dt * (pW4.noiseAmp * noiseFn pW4.seed u nA.val
            + (0 + ((stateAtStep pW4 (twoConn 1 1) v0W4 u nA).pending 0
              + arrivals (twoConn 1 1) (stateAtStep pW4 (twoConn 1 1) v0W4 u) nA 0))
            - pW4.decay * (stateAtStep pW4 (twoConn 1 1) v0W4 u nA).v) := rfl
    have hv2 : (stepSeq pW4 (twoConn 1 1) u (stateAtStep pW4 (twoConn 1 1) v0W4 u) nA).v
        = 2 * (1/2 : ℚ) ^ (u + 1) := by
      rw [hvr, ihp 0, arrivals_twoConn_A, ihv]
      show 2 * (1/2 : ℚ) ^ u + pW4.dt * (pW4.noiseAmp * noiseFn pW4.seed u nA.val
          + (0 + (0 + 0)) - pW4.decay * (2 * (1/2 : ℚ) ^ u)) = 2 * (1/2 : ℚ) ^ (u + 1)
      norm_num [pW4]
      ring
    refine ⟨hv2, ?_, ?_⟩
    · have hfr : (stepSeq pW4 (twoConn 1 1) u (stateAtStep pW4 (twoConn 1 1) v0W4 u) nA).fired
          = decide (pW4.threshold
              ≤ (stepSeq pW4 (twoConn 1 1) u (stateAtStep pW4 (twoConn 1 1) v0W4 u) nA).v) :=
        rfl
      rw [hfr, hv2, decide_eq_true_eq]
      have h2 : 2 * (1/2 : ℚ) ^ (u + 1) = (1/2 : ℚ) ^ u := by ring
      have hth : pW4.threshold = 1 := rfl
      rw [h2, hth]
      constructor
      · intro hle
        by_contra hne
        have hu : u ≠ 0 := by omega
        have hlt : (1/2 : ℚ) ^ u < 1 := pow_lt_one₀ (by norm_num) (by norm_num) hu
        linarith
      · intro h1
        have hu : u = 0 := by omega
        subst hu
        norm_num
    · intro m
      show (stateAtStep pW4 (twoConn 1 1) v0W4 u nA).pending (m + 1)
          + arrivals (twoConn 1 1) (stateAtStep pW4 (twoConn 1 1) v0W4 u) nA (m + 1) = 0
      rw [ihp (m + 1), arrivals_twoConn_A, add_zero]

/-- Witness for C4: with weight 1, delay 1 and the source firing exactly
at step 1, the target's accumulated input is non-zero at step 2. -/
theorem single_synapse_delivers_at_t_plus_d_witness :
    accInputAt pW4 (twoConn 1 1) v0W4 nB 2 ≠ 0 :=
  ((single_synapse_delivers_at_t_plus_d pW4 1 1 v0W4 1 (by norm_num)
      (fun u => (w4_A_char u).2.1)).2 2).mpr rfl
